import Mathlib

/-!
# Verification of the todotxt line parser core

A shallow embedding of the `todotxt` Rust crate: the priority, date, state
and task grammar built on nom 4 combinators (`src/todotxt/src/task.rs`,
`priority.rs`), the lazy tag scanner (`tags.rs`) and the line iterator
(`parser.rs`).  Strings are modelled as `List Char`; byte offsets where they
matter (tag spans) are computed from each character's UTF-8 size.

nom 4 parsers over `&str` are streaming: a parser can succeed, fail with a
recoverable error, or report that the input ended too early (`Incomplete`).
`opt!`, `alt!` and `switch!` recover only from errors and propagate
`Incomplete`; this distinction is observable at line ends and is modelled
faithfully by `NomOut.incomplete`.
-/

namespace Todotxt

abbrev Str := List Char

/-- The set recognised by Rust's `char::is_whitespace` (Unicode `White_Space`),
used by `str::trim` and by the tag scanner's word-boundary predicates. -/
def rustIsWhitespace (c : Char) : Bool :=
  c.val == 0x9 || c.val == 0xA || c.val == 0xB || c.val == 0xC || c.val == 0xD ||
  c.val == 0x20 || c.val == 0x85 || c.val == 0xA0 || c.val == 0x1680 ||
  (0x2000 ≤ c.val && c.val ≤ 0x200A) || c.val == 0x2028 || c.val == 0x2029 ||
  c.val == 0x202F || c.val == 0x205F || c.val == 0x3000

/-- Characters matched by nom 4's `space` parser: space and tab. -/
def isSpaceTab (c : Char) : Bool := c == ' ' || c == '\t'

/-- Characters eaten by nom 4's `ws!` separator (`eat_separator!(" \t\r\n")`). -/
def isSep (c : Char) : Bool := c == ' ' || c == '\t' || c == '\r' || c == '\n'

/-- Result of a nom 4 parser over `&str`: success with the unconsumed rest,
a recoverable error (`Err::Error`), or `Err::Incomplete`. -/
inductive NomOut (α : Type) where
  | ok (rest : Str) (val : α)
  | error
  | incomplete
deriving DecidableEq, Repr

/-- Sequencing of nom parsers: errors and `Incomplete` propagate. -/
def nbind {α β : Type} (r : NomOut α) (f : Str → α → NomOut β) : NomOut β :=
  match r with
  | .ok rest v => f rest v
  | .error => .error
  | .incomplete => .incomplete

/-- nom's `opt!`: recovers from `Err::Error` by consuming nothing, but
propagates `Incomplete` unchanged. -/
def optP {α : Type} (p : Str → NomOut α) (s : Str) : NomOut (Option α) :=
  match p s with
  | .ok r v => .ok r (some v)
  | .error => .ok s none
  | .incomplete => .incomplete

/-- nom's `complete!`: turns `Incomplete` into a recoverable error. -/
def completeP {α : Type} (p : Str → NomOut α) (s : Str) : NomOut α :=
  match p s with
  | .incomplete => .error
  | r => r

/-- nom's `char!(c)`: `Incomplete` on empty input, error on mismatch. -/
def charP (c : Char) (s : Str) : NomOut Char :=
  match s with
  | [] => .incomplete
  | a :: rest => if a = c then .ok rest a else .error

/-- nom 4's `space`: one or more spaces/tabs via `split_at_position1`.
If every character of the input matches (including the empty input) the
position is not found and the parser reports `Incomplete`. -/
def space1 (s : Str) : NomOut Unit :=
  let rest := s.dropWhile isSpaceTab
  if rest.isEmpty then .incomplete
  else if s.takeWhile isSpaceTab = ([] : Str) then .error
  else .ok rest ()

/-- nom's `take!(n)` over `&str` (counts characters): `Incomplete` when the
input holds fewer than `n` characters. -/
def takeN (n : Nat) (s : Str) : NomOut Str :=
  if n ≤ s.length then .ok (s.drop n) (s.take n) else .incomplete

/-- `eat_separator!(" \t\r\n")` as used by `ws!`: `split_at_position` looking
for the first non-separator; when none exists the result is `Incomplete`. -/
def eatSep (s : Str) : NomOut Unit :=
  let rest := s.dropWhile isSep
  if rest.isEmpty then .incomplete else .ok rest ()

/-- A run of decimal digits, as accepted by Rust's integer `FromStr` after the
optional sign: nonempty and all ASCII digits. -/
def parseDigits (s : Str) : Option Nat :=
  if s.isEmpty then none
  else if s.all Char.isDigit then some (s.foldl (fun n c => n * 10 + (c.toNat - 48)) 0)
  else none

/-- Rust's `str::parse::<i32>` on a short slice: optional `+`/`-` sign then
digits.  The source only ever applies this to 4-character slices, whose values
cannot overflow `i32`, so no range check is modelled. -/
def parseI32 (s : Str) : Option Int :=
  match s with
  | '+' :: rest => (parseDigits rest).map Int.ofNat
  | '-' :: rest => (parseDigits rest).map (fun n => -(n : Int))
  | _ => (parseDigits s).map Int.ofNat

/-- Rust's `str::parse::<u32>` on a short slice: optional `+` sign then
digits (a leading `-` is rejected for unsigned parses). -/
def parseU32 (s : Str) : Option Nat :=
  match s with
  | '+' :: rest => parseDigits rest
  | _ => parseDigits s

/-- chrono's `NaiveDate`, as the year/month/day triple the parser constructs. -/
structure NaiveDate where
  year : Int
  month : Nat
  day : Nat
deriving DecidableEq, Repr

/-- Proleptic-Gregorian leap-year rule used by chrono. -/
def isLeapYear (y : Int) : Bool :=
  (y % 4 == 0 && y % 100 != 0) || y % 400 == 0

def daysInMonth (y : Int) (m : Nat) : Nat :=
  match m with
  | 1 => 31
  | 2 => if isLeapYear y then 29 else 28
  | 3 => 31
  | 4 => 30
  | 5 => 31
  | 6 => 30
  | 7 => 31
  | 8 => 31
  | 9 => 30
  | 10 => 31
  | 11 => 30
  | 12 => 31
  | _ => 0

/-- chrono's `NaiveDate::from_ymd_opt` validity test: a real civil-calendar
date with the year inside chrono's representable range. -/
def fromYmdValid (y : Int) (m d : Nat) : Bool :=
  1 ≤ m && m ≤ 12 && 1 ≤ d && d ≤ daysInMonth y m && -262144 ≤ y && y ≤ 262143

/-- The `ymd` sub-parser of `NaiveDate::parse`:
`take!(4)`/`parse_to!(i32)`, `char!('-')`, `take!(2)`/`parse_to!(u32)`,
`char!('-')`, `take!(2)`/`parse_to!(u32)`. -/
def ymdParse (s : Str) : NomOut (Int × Nat × Nat) :=
  nbind (takeN 4 s) fun s1 ys =>
  match parseI32 ys with
  | none => .error
  | some y =>
  nbind (charP '-' s1) fun s2 _ =>
  nbind (takeN 2 s2) fun s3 ms =>
  match parseU32 ms with
  | none => .error
  | some m =>
  nbind (charP '-' s3) fun s4 _ =>
  nbind (takeN 2 s4) fun s5 ds =>
  match parseU32 ds with
  | none => .error
  | some d => .ok s5 (y, m, d)

/-- `NaiveDate::parse`: `map_opt!(complete!(ymd), NaiveDate::from_ymd_opt)`.
`complete!` demotes `Incomplete` to an error, and an invalid calendar date is
likewise a recoverable error (grammar non-match). -/
def NaiveDate.parse (s : Str) : NomOut NaiveDate :=
  match completeP ymdParse s with
  | .ok rest (y, m, d) => if fromYmdValid y m d then .ok rest ⟨y, m, d⟩ else .error
  | _ => .error

/-- The 26 priority letters, in declaration order `A` first. -/
inductive Priority where
  | A | B | C | D | E | F | G | H | I | J | K | L | M
  | N | O | P | Q | R | S | T | U | V | W | X | Y | Z
deriving DecidableEq, Repr, Fintype

/-- The discriminant of each variant (`*self as usize` in the source). -/
def Priority.toIdx : Priority → Nat
  | .A => 0 | .B => 1 | .C => 2 | .D => 3 | .E => 4 | .F => 5 | .G => 6
  | .H => 7 | .I => 8 | .J => 9 | .K => 10 | .L => 11 | .M => 12 | .N => 13
  | .O => 14 | .P => 15 | .Q => 16 | .R => 17 | .S => 18 | .T => 19 | .U => 20
  | .V => 21 | .W => 22 | .X => 23 | .Y => 24 | .Z => 25

/-- The letter each variant is parsed from, covering the 26-way `alt!` of
`value!(…, char!(…))` branches in `Priority::parse`. -/
def Priority.ofChar : Char → Option Priority
  | 'A' => some .A | 'B' => some .B | 'C' => some .C | 'D' => some .D
  | 'E' => some .E | 'F' => some .F | 'G' => some .G | 'H' => some .H
  | 'I' => some .I | 'J' => some .J | 'K' => some .K | 'L' => some .L
  | 'M' => some .M | 'N' => some .N | 'O' => some .O | 'P' => some .P
  | 'Q' => some .Q | 'R' => some .R | 'S' => some .S | 'T' => some .T
  | 'U' => some .U | 'V' => some .V | 'W' => some .W | 'X' => some .X
  | 'Y' => some .Y | 'Z' => some .Z
  | _ => none

/-- The inner `alt!` of `Priority::parse`: on empty input the first
`char!` reports `Incomplete`, which `alt!` propagates; otherwise a letter in
`A-Z` matches and anything else exhausts every branch with an error. -/
def priorityVal (s : Str) : NomOut Priority :=
  match s with
  | [] => .incomplete
  | c :: rest =>
    match Priority.ofChar c with
    | some p => .ok rest p
    | none => .error

/-- `Priority::parse`: `delimited!(char!('('), value, char!(')'))`. -/
def Priority.parse (s : Str) : NomOut Priority :=
  nbind (charP '(' s) fun s1 _ =>
  nbind (priorityVal s1) fun s2 p =>
  nbind (charP ')' s2) fun s3 _ => .ok s3 p

/-- The derived `Ord::cmp` of `Priority`: a fieldless enum derives
`Ord` by comparing discriminants, i.e. declaration order with `A` least. -/
def Priority.cmp (p q : Priority) : Ordering :=
  compare p.toIdx q.toIdx

/-- The hand-written `PartialOrd::partial_cmp` of `Priority` (priority.rs
lines 82-95): equal discriminants are `Equal`, a smaller discriminant
compares `Greater`, a larger one `Less`. -/
def Priority.pcmp (p q : Priority) : Option Ordering :=
  let lhs := p.toIdx
  let rhs := q.toIdx
  if lhs = rhs then some .eq
  else if lhs < rhs then some .gt
  else some .lt

/-- `State`: the disjoint union of complete and incomplete tasks. -/
inductive State where
  | complete (dates : Option (NaiveDate × NaiveDate))
  | incomplete (priority : Option Priority) (creationDate : Option NaiveDate)
deriving DecidableEq, Repr

/-- The `complete` sub-parser of `State::parse`:
`terminated!(separated_pair!(NaiveDate::parse, space, NaiveDate::parse), space)`. -/
def completeDates (s : Str) : NomOut (NaiveDate × NaiveDate) :=
  nbind (NaiveDate.parse s) fun s1 d1 =>
  nbind (space1 s1) fun s2 _ =>
  nbind (NaiveDate.parse s2) fun s3 d2 =>
  nbind (space1 s3) fun s4 _ => .ok s4 (d1, d2)

/-- `terminated!(Priority::parse, space)`. -/
def prioritySpace (t : Str) : NomOut Priority :=
  nbind (Priority.parse t) fun r p =>
  nbind (space1 r) fun r2 _ => .ok r2 p

/-- `terminated!(NaiveDate::parse, space)`. -/
def dateSpace (t : Str) : NomOut NaiveDate :=
  nbind (NaiveDate.parse t) fun r d =>
  nbind (space1 r) fun r2 _ => .ok r2 d

/-- The `unknown` sub-parser of `State::parse`: an optional
priority-then-space, then two optional date-then-space fields. -/
def unknownTriple (s : Str) :
    NomOut (Option Priority × Option NaiveDate × Option NaiveDate) :=
  nbind (optP prioritySpace s) fun s1 pr =>
  nbind (optP dateSpace s1) fun s2 d1 =>
  nbind (optP dateSpace s2) fun s3 d2 =>
  .ok s3 (pr, d1, d2)

/-- `terminated!(char!('x'), space)`. -/
def xSpace (t : Str) : NomOut Char :=
  nbind (charP 'x' t) fun r c =>
  nbind (space1 r) fun r2 _ => .ok r2 c

/-- The completion marker test: `opt!(terminated!(char!('x'), space))`. -/
def xMarker (s : Str) : NomOut (Option Char) :=
  optP xSpace s

/-- `State::parse` (task.rs lines 68-99): switch on the completion marker;
with the marker, an optional contiguous date pair; without it, the
priority/date/date triple, where exactly two dates and no priority are
reinterpreted as a complete task and every other combination stays
incomplete with the first date as creation date. -/
def State.parse (s : Str) : NomOut State :=
  nbind (xMarker s) fun s1 x =>
  match x with
  | some _ =>
    nbind (optP completeDates s1) fun s2 dates => .ok s2 (State.complete dates)
  | none =>
    nbind (unknownTriple s1) fun s2 t =>
    match t with
    | (none, some completionDate, some creationDate) =>
      .ok s2 (State.complete (some (completionDate, creationDate)))
    | (priority, creationDate, _) =>
      .ok s2 (State.incomplete priority creationDate)

/-- A parsed task: its state and its description text. -/
structure Task where
  state : State
  text : Str
deriving DecidableEq, Repr

/-- `Task::completion_date`. -/
def Task.completion_date (t : Task) : Option NaiveDate :=
  match t.state with
  | .complete st => st.map Prod.fst
  | .incomplete _ _ => none

/-- `Task::creation_date`, exactly as written in task.rs lines 112-117: the
`Complete` arm maps the pair with `|(date, _)| date`, projecting the first
component. -/
def Task.creation_date (t : Task) : Option NaiveDate :=
  match t.state with
  | .complete st => st.map Prod.fst
  | .incomplete _ date => date

/-- `Task::description`. -/
def Task.description (t : Task) : Str := t.text

/-- `Task::is_complete`. -/
def Task.is_complete (t : Task) : Bool :=
  match t.state with
  | .complete _ => true
  | .incomplete _ _ => false

/-- `Task::priority`. -/
def Task.priority (t : Task) : Option Priority :=
  match t.state with
  | .complete _ => none
  | .incomplete priority _ => priority

/-- `Task::parse`: `pair!(ws!(State::parse), map!(nom::rest, Cow::Borrowed))`.
`ws!` eats separators before and after the inner parser (each eat reports
`Incomplete` when it reaches the end of input), and `nom::rest` consumes
whatever remains as the description. -/
def Task.parse (s : Str) : NomOut Task :=
  nbind (eatSep s) fun s1 _ =>
  nbind (State.parse s1) fun s2 st =>
  nbind (eatSep s2) fun s3 _ =>
  .ok [] ⟨st, s3⟩

/-- The crate-level `parse` helper (parser.rs lines 41-49): any non-`ok`
outcome is flattened to `None`. -/
def parseTask (s : Str) : Option Task :=
  match Task.parse s with
  | .ok _ t => some t
  | _ => none

/-- `str::trim` on a line: Unicode whitespace removed from both ends. -/
def rustTrim (s : Str) : Str :=
  ((s.dropWhile rustIsWhitespace).reverse.dropWhile rustIsWhitespace).reverse

/-- Split on `'\n'`, keeping empty pieces. -/
def splitOnNl : Str → List Str
  | [] => [[]]
  | c :: rest =>
    if c = '\n' then [] :: splitOnNl rest
    else
      match splitOnNl rest with
      | [] => [[c]]
      | l :: ls => (c :: l) :: ls

/-- Strip one trailing `'\r'` from a line that was terminated by `'\n'`. -/
def stripCr (l : Str) : Str :=
  if l.getLast? = some '\r' then l.dropLast else l

/-- `str::lines`: split on `'\n'` with an optional final terminator, and a
`'\r'` immediately before each `'\n'` stripped.  An unterminated final line
keeps a trailing `'\r'`. -/
def rustLines (s : Str) : List Str :=
  if s.isEmpty then []
  else if s.getLast? = some '\n' then ((splitOnNl s).dropLast).map stripCr
  else ((splitOnNl s).dropLast).map stripCr ++ [(splitOnNl s).getLastD []]

/-- One direction of the task iterator (`Iter::next`, parser.rs lines 73-85),
collected to a list: trim each line, skip it when the trim leaves nothing,
otherwise parse it — and when the parse yields `None`, `next` itself returns
`None`, which ends iteration on the spot. -/
def collectTasks : List Str → List Task
  | [] => []
  | l :: rest =>
    let t := rustTrim l
    if t.isEmpty then collectTasks rest
    else
      match parseTask t with
      | none => []
      | some task => task :: collectTasks rest

/-- Forward iteration over the tasks of a raw input. -/
def tasksForward (s : Str) : List Task := collectTasks (rustLines s)

/-- Reverse iteration (`Iter::next_back`, parser.rs lines 59-69): the same
per-line behaviour applied from the last line towards the first.  The result
lists tasks in the order `next_back` produces them. -/
def tasksBackward (s : Str) : List Task := collectTasks (rustLines s).reverse

/-- Convenience for writing concrete inputs. -/
def str (s : String) : Str := s.data

/-!
## The tag scanner (tags.rs)

`Tags` iterates `CharIndices`, i.e. pairs of a byte offset and the character
starting there.  Spans are byte offsets into the description; slicing a `str`
at a non-boundary offset panics, which the model renders as `none`.
-/

/-- The three tag variants, each carrying byte-offset spans relative to the
description.  The source's accessors are `start()` and `end()`; `end` is a
reserved word in Lean, so the second field is called `stop`. -/
inductive Tag where
  | context (start stop : Nat)
  | project (start stop : Nat)
  | special (start stop : Nat)
deriving DecidableEq, Repr

/-- `Tag::start`. -/
def Tag.start : Tag → Nat
  | .context s _ => s
  | .project s _ => s
  | .special s _ => s

/-- `Tag::end`. -/
def Tag.stop : Tag → Nat
  | .context _ e => e
  | .project _ e => e
  | .special _ e => e

/-- `str::char_indices` from a given byte offset: each character paired with
the byte offset at which it starts. -/
def charIndicesFrom (pos : Nat) : Str → List (Nat × Char)
  | [] => []
  | c :: cs => (pos, c) :: charIndicesFrom (pos + c.utf8Size) cs

/-- The characters reachable by dropping exactly `n` bytes, or `none` when
`n` falls inside a character (a non-boundary offset). -/
def dropBytes : Str → Nat → Option Str
  | s, 0 => some s
  | [], _ + 1 => none
  | c :: cs, n + 1 =>
    if c.utf8Size ≤ n + 1 then dropBytes cs (n + 1 - c.utf8Size) else none

/-- The characters spanning exactly the first `n` bytes, or `none` when `n`
is not a character boundary (or exceeds the text). -/
def takeBytes : Str → Nat → Option Str
  | _, 0 => some []
  | [], _ + 1 => none
  | c :: cs, n + 1 =>
    if c.utf8Size ≤ n + 1 then (takeBytes cs (n + 1 - c.utf8Size)).map (c :: ·)
    else none

/-- Rust's `&s[start..stop]` on byte offsets: panics — modelled as `none` —
when `start > stop` or either offset is not a character boundary of `s`. -/
def byteSlice (s : Str) (start stop : Nat) : Option Str :=
  if start ≤ stop then
    (dropBytes s start).bind (fun tail => takeBytes tail (stop - start))
  else none

/-- `next_word_boundary` (tags.rs lines 175-181): skip whitespace, take the
run of non-whitespace characters; `start` is the first character's byte
offset and `end` is the *last* character's byte offset plus one — or `start`
itself when the word has a single character, since `iter.last()` of the
emptied adapter yields nothing and `map_or` falls back to `start`.  The
returned list is the iterator state left behind: `take_while` also consumed
the first whitespace character after the word, when there was one. -/
def nextWordBoundary (l : List (Nat × Char)) : Option (Nat × Nat × List (Nat × Char)) :=
  match l.dropWhile (fun p => rustIsWhitespace p.2) with
  | [] => none
  | (start, _) :: rest =>
    let tailWord := rest.takeWhile (fun p => !rustIsWhitespace p.2)
    let stop :=
      match tailWord.getLast? with
      | none => start
      | some (idx, _) => idx + 1
    some (start, stop, (rest.drop tailWord.length).tail)

theorem length_dropWhile_le {α : Type} (p : α → Bool) (l : List α) :
    (l.dropWhile p).length ≤ l.length := by
  induction l with
  | nil => simp [List.dropWhile]
  | cons a l ih =>
    simp only [List.dropWhile]
    cases p a <;> simp <;> omega

theorem nextWordBoundary_shrink {l : List (Nat × Char)} {s e : Nat}
    {r : List (Nat × Char)} (h : nextWordBoundary l = some (s, e, r)) :
    r.length < l.length := by
  unfold nextWordBoundary at h
  rcases hd : l.dropWhile (fun p => rustIsWhitespace p.2) with _ | ⟨⟨start, c⟩, rest⟩
  · rw [hd] at h; exact absurd h (by simp)
  · rw [hd] at h
    simp only [Option.some.injEq, Prod.mk.injEq] at h
    obtain ⟨-, -, hr⟩ := h
    have h1 : rest.length + 1 ≤ l.length := by
      have h2 := length_dropWhile_le (fun p => rustIsWhitespace p.2) l
      rw [hd] at h2
      simpa using h2
    have h3 : r.length ≤ rest.length := by
      rw [← hr, List.length_tail, List.length_drop]
      omega
    omega

/-- `Tags::next` (tags.rs lines 148-165): scan the next word, slice it out of
the description, and classify it — `@…` context, `+…` project, a word
containing `:` special — recursing past words that are none of these.  The
outer `none` models the panic of slicing at a non-boundary offset; `some
none` is an exhausted iterator. -/
def tagsNext (data : Str) (st : List (Nat × Char)) :
    Option (Option (Tag × List (Nat × Char))) :=
  match h : nextWordBoundary st with
  | none => some none
  | some (start, stop, rest) =>
    match byteSlice data start stop with
    | none => none
    | some word =>
      if word.head? = some '@' then some (some (Tag.context start stop, rest))
      else if word.head? = some '+' then some (some (Tag.project start stop, rest))
      else if word.contains ':' then some (some (Tag.special start stop, rest))
      else tagsNext data rest
termination_by st.length
decreasing_by exact nextWordBoundary_shrink h

theorem tagsNext_shrink (data : Str) :
    ∀ n (st : List (Nat × Char)) (t : Tag) (r : List (Nat × Char)),
      st.length ≤ n → tagsNext data st = some (some (t, r)) →
      r.length < st.length := by
  intro n
  induction n with
  | zero =>
    intro st t r hlen h
    rw [List.length_eq_zero.mp (Nat.le_zero.mp hlen)] at h ⊢
    rw [tagsNext] at h
    simp [nextWordBoundary] at h
  | succ n ih =>
    intro st t r hlen h
    rw [tagsNext] at h
    split at h
    · exact absurd h (by simp)
    · rename_i start stop rest hw
      have hr : rest.length < st.length := nextWordBoundary_shrink hw
      split at h
      · exact absurd h (by simp)
      · split at h
        · simp only [Option.some.injEq, Prod.mk.injEq] at h
          obtain ⟨-, rfl⟩ := h
          exact hr
        · split at h
          · simp only [Option.some.injEq, Prod.mk.injEq] at h
            obtain ⟨-, rfl⟩ := h
            exact hr
          · split at h
            · simp only [Option.some.injEq, Prod.mk.injEq] at h
              obtain ⟨-, rfl⟩ := h
              exact hr
            · have := ih rest t r (by omega) h
              omega

/-- Collecting the tag iterator to a list: `none` when any step panics. -/
def allTags (data : Str) (st : List (Nat × Char)) : Option (List Tag) :=
  match h : tagsNext data st with
  | none => none
  | some none => some []
  | some (some (t, r)) => (allTags data r).map (t :: ·)
termination_by st.length
decreasing_by exact tagsNext_shrink data st.length st t r (Nat.le_refl _) h

/-- `Task::tags().collect()` on a description: the scan starts from a fresh
`char_indices` iterator over the description. -/
def tagsOf (data : Str) : Option (List Tag) :=
  allTags data (charIndicesFrom 0 data)

/-!
## Helper lemmas about the grammar building blocks
-/

/-- A nonempty run of the characters `space` accepts. -/
def wsRun (w : Str) : Prop := w ≠ [] ∧ ∀ c ∈ w, isSpaceTab c

/-- The first character of a token accepted by `parse_to!(i32)`. -/
def dateStartOk (c : Char) : Prop := c = '+' ∨ c = '-' ∨ c.isDigit

theorem takeN_ok {n : Nat} {s r v : Str} (h : takeN n s = .ok r v) :
    s = v ++ r ∧ v.length = n := by
  unfold takeN at h
  split at h
  · rename_i hle
    simp only [NomOut.ok.injEq] at h
    obtain ⟨rfl, rfl⟩ := h
    exact ⟨(List.take_append_drop n s).symm, List.length_take_of_le hle⟩
  · exact absurd h (by simp)

theorem takeN_append {n : Nat} {v : Str} (r : Str) (hv : v.length = n) :
    takeN n (v ++ r) = .ok r v := by
  unfold takeN
  rw [if_pos (by simp [hv])]
  subst hv
  rw [List.take_left, List.drop_left]

theorem charP_cons (c : Char) (s : Str) : charP c (c :: s) = .ok s c := by
  simp [charP]

theorem space1_run {w : Str} (hw : wsRun w) {c : Char} (hc : isSpaceTab c = false)
    (r : Str) : space1 (w ++ c :: r) = .ok (c :: r) () := by
  obtain ⟨hne, hall⟩ := hw
  have hdrop : (w ++ c :: r).dropWhile isSpaceTab = c :: r := by
    rw [List.dropWhile_append]
    have h1 : w.dropWhile isSpaceTab = [] :=
      List.dropWhile_eq_nil_iff.mpr fun x hx => hall x hx
    simp [h1, List.dropWhile_cons, hc]
  have htake : (w ++ c :: r).takeWhile isSpaceTab ≠ [] := by
    obtain ⟨a, w', rfl⟩ := List.exists_cons_of_ne_nil hne
    have : isSpaceTab a := hall a (List.mem_cons_self _ _)
    simp [List.takeWhile_cons, this]
  unfold space1
  simp only [hdrop]
  rw [if_neg (by simp), if_neg htake]

theorem eatSep_noSep {s : Str} (hne : s ≠ []) (hh : ∀ c, s.head? = some c → isSep c = false) :
    eatSep s = .ok s () := by
  obtain ⟨a, s', rfl⟩ := List.exists_cons_of_ne_nil hne
  have ha := hh a rfl
  unfold eatSep
  simp [List.dropWhile_cons, ha]

theorem parseDigits_head {s : Str} {n : Nat} (h : parseDigits s = some n) :
    ∃ c tl, s = c :: tl ∧ c.isDigit := by
  unfold parseDigits at h
  split at h
  · exact absurd h (by simp)
  · split at h
    · rename_i hne hall
      obtain ⟨a, s', rfl⟩ := List.exists_cons_of_ne_nil (by simpa using hne)
      exact ⟨a, s', rfl, by simpa using List.all_eq_true.mp hall a (List.mem_cons_self _ _)⟩
    · exact absurd h (by simp)

theorem parseI32_head {s : Str} {v : Int} (h : parseI32 s = some v) :
    ∃ c tl, s = c :: tl ∧ dateStartOk c := by
  unfold parseI32 at h
  split at h
  · rename_i rest
    exact ⟨'+', rest, rfl, Or.inl rfl⟩
  · rename_i rest
    exact ⟨'-', rest, rfl, Or.inr (Or.inl rfl)⟩
  · rename_i h1 h2
    rcases hd : parseDigits s with _ | n
    · rw [hd] at h; exact absurd h (by simp)
    · obtain ⟨c, tl, rfl, hdig⟩ := parseDigits_head hd
      exact ⟨c, tl, rfl, Or.inr (Or.inr hdig)⟩

theorem dateStartOk_not_special {c : Char} (h : dateStartOk c) :
    c ≠ 'x' ∧ c ≠ '(' ∧ isSpaceTab c = false ∧ isSep c = false := by
  rcases h with rfl | rfl | hd
  · exact ⟨by decide, by decide, by decide, by decide⟩
  · exact ⟨by decide, by decide, by decide, by decide⟩
  · have hne : ∀ d : Char, d.isDigit = false → c ≠ d := by
      rintro d hn rfl
      rw [hd] at hn
      exact absurd hn (by simp)
    have h1 := hne 'x' (by decide)
    have h2 := hne '(' (by decide)
    have h3 := hne ' ' (by decide)
    have h4 := hne '\t' (by decide)
    have h5 := hne '\r' (by decide)
    have h6 := hne '\n' (by decide)
    refine ⟨h1, h2, ?_, ?_⟩
    · simp [isSpaceTab, beq_iff_eq, h3, h4]
    · simp [isSep, beq_iff_eq, h3, h4, h5, h6]

theorem charP_ok {c : Char} {s r : Str} {v : Char} (h : charP c s = .ok r v) :
    s = c :: r := by
  rcases s with _ | ⟨a, rest⟩
  · simp [charP] at h
  · simp only [charP] at h
    split at h
    · rename_i hac
      simp only [NomOut.ok.injEq] at h
      rw [hac, h.1]
    · simp at h

theorem completeP_ok {α : Type} {p : Str → NomOut α} {s r : Str} {v : α} :
    completeP p s = .ok r v ↔ p s = .ok r v := by
  unfold completeP
  rcases h : p s with _ | _ | _ <;> simp

theorem nbind_ok {α β : Type} {r : NomOut α} {f : Str → α → NomOut β}
    {r2 : Str} {v : β} (h : nbind r f = .ok r2 v) :
    ∃ s1 v1, r = .ok s1 v1 ∧ f s1 v1 = .ok r2 v := by
  rcases r with ⟨s1, v1⟩ | _ | _
  · exact ⟨s1, v1, rfl, h⟩
  · exact absurd h (by simp [nbind])
  · exact absurd h (by simp [nbind])

theorem ymdParse_decompose {s : Str} {t : Int × Nat × Nat}
    (h : ymdParse s = .ok [] t) :
    (∃ c tl, s = c :: tl ∧ dateStartOk c) ∧
      ∀ rest, ymdParse (s ++ rest) = .ok rest t := by
  unfold ymdParse at h
  obtain ⟨s1, ys, htk, h⟩ := nbind_ok h
  obtain ⟨hs, hys4⟩ := takeN_ok htk
  split at h
  · exact absurd h (by simp)
  rename_i y hpi
  obtain ⟨s2, c1, hc1, h⟩ := nbind_ok h
  have hs1 : s1 = '-' :: s2 := charP_ok hc1
  obtain ⟨s3, ms, htk2, h⟩ := nbind_ok h
  obtain ⟨hs2, hms2⟩ := takeN_ok htk2
  split at h
  · exact absurd h (by simp)
  rename_i m hpu1
  obtain ⟨s4, c2, hc2, h⟩ := nbind_ok h
  have hs3 : s3 = '-' :: s4 := charP_ok hc2
  obtain ⟨s5, ds, htk3, h⟩ := nbind_ok h
  obtain ⟨hs4, hds2⟩ := takeN_ok htk3
  split at h
  · exact absurd h (by simp)
  rename_i d hpu2
  simp only [NomOut.ok.injEq] at h
  obtain ⟨hs5, hty⟩ := h
  subst hs5 hs1 hs3 hs2 hs4 hs hty
  obtain ⟨c, tl, hys, hcok⟩ := parseI32_head hpi
  constructor
  · exact ⟨c, tl ++ '-' :: (ms ++ '-' :: (ds ++ [])), by rw [hys]; simp, hcok⟩
  · intro rest
    have e1 : takeN 4 (ys ++ ('-' :: (ms ++ '-' :: (ds ++ rest)))) =
        .ok ('-' :: (ms ++ '-' :: (ds ++ rest))) ys := takeN_append _ hys4
    have e2 : takeN 2 (ms ++ ('-' :: (ds ++ rest))) =
        .ok ('-' :: (ds ++ rest)) ms := takeN_append _ hms2
    have e3 : takeN 2 (ds ++ rest) = .ok rest ds := takeN_append _ hds2
    simp only [List.append_assoc, List.cons_append, List.append_nil,
      List.nil_append]
    unfold ymdParse
    simp only [List.append_assoc] at e1 e2 e3
    rw [e1]
    simp only [nbind, hpi, charP_cons, e2, hpu1, e3, hpu2]

theorem dateParse_decompose {s : Str} {d : NaiveDate}
    (h : NaiveDate.parse s = .ok [] d) :
    (∃ c tl, s = c :: tl ∧ dateStartOk c) ∧
      ∀ rest, NaiveDate.parse (s ++ rest) = .ok rest d := by
  unfold NaiveDate.parse at h
  rcases hc : completeP ymdParse s with ⟨r, ⟨y, m, dy⟩⟩ | _ | _ <;> rw [hc] at h
  case error => exact absurd h (by simp)
  case incomplete => exact absurd h (by simp)
  rw [apply_ite (· = NomOut.ok ([] : Str) d)] at h
  split at h
  case isFalse => exact absurd h (by simp)
  rename_i hvalid
  simp only [NomOut.ok.injEq] at h
  obtain ⟨hr, hd⟩ := h
  subst hr
  obtain ⟨hhead, hext⟩ := ymdParse_decompose (completeP_ok.mp hc)
  refine ⟨hhead, fun rest => ?_⟩
  unfold NaiveDate.parse
  rw [completeP_ok.mpr (hext rest)]
  simp [hvalid, hd]

/-- The first character (when any) is not a space or tab. -/
def headNotST (s : Str) : Prop := ∀ c, s.head? = some c → isSpaceTab c = false

/-- The first character (when any) is not one of `ws!`'s separators. -/
def headNotSep (s : Str) : Prop := ∀ c, s.head? = some c → isSep c = false

theorem headNotSep.toST {s : Str} (h : headNotSep s) : headNotST s := by
  intro c hc
  have h2 := h c hc
  simp only [isSep, Bool.or_eq_false_iff] at h2
  simp only [isSpaceTab, Bool.or_eq_false_iff]
  exact h2.1.1

theorem space1_run2 {w cr : Str} (hw : wsRun w) (hcr : cr ≠ [])
    (hh : headNotST cr) : space1 (w ++ cr) = .ok cr () := by
  obtain ⟨a, tl, rfl⟩ := List.exists_cons_of_ne_nil hcr
  exact space1_run hw (hh a rfl) tl

theorem optP_of_ok {α : Type} {f : Str → NomOut α} {s r : Str} {v : α}
    (hf : f s = .ok r v) : optP f s = .ok r (some v) := by
  simp [optP, hf]

theorem optP_of_err {α : Type} {f : Str → NomOut α} {s : Str}
    (hf : f s = .error) : optP f s = .ok s none := by
  simp [optP, hf]

theorem priorityParse_run {ch : Char} {p : Priority}
    (hc : Priority.ofChar ch = some p) (r : Str) :
    Priority.parse ('(' :: ch :: ')' :: r) = .ok r p := by
  unfold Priority.parse
  rw [charP_cons]
  simp only [nbind, priorityVal, hc]
  rw [charP_cons]

theorem prioritySpace_run {ch : Char} {p : Priority} {w cr : Str}
    (hc : Priority.ofChar ch = some p) (hw : wsRun w) (hcr : cr ≠ [])
    (hh : headNotST cr) :
    prioritySpace ('(' :: ch :: ')' :: (w ++ cr)) = .ok cr p := by
  unfold prioritySpace
  rw [priorityParse_run hc]
  simp only [nbind]
  rw [space1_run2 hw hcr hh]

theorem prioritySpace_err {c : Char} {r : Str} (hc : c ≠ '(') :
    prioritySpace (c :: r) = .error := by
  simp [prioritySpace, Priority.parse, charP, hc, nbind]

theorem dateSpace_run {s1 w cr : Str} {d : NaiveDate}
    (h1 : NaiveDate.parse s1 = .ok [] d) (hw : wsRun w) (hcr : cr ≠ [])
    (hh : headNotST cr) : dateSpace (s1 ++ (w ++ cr)) = .ok cr d := by
  unfold dateSpace
  rw [(dateParse_decompose h1).2 (w ++ cr)]
  simp only [nbind]
  rw [space1_run2 hw hcr hh]

theorem xMarker_none {c : Char} {r : Str} (hc : c ≠ 'x') :
    xMarker (c :: r) = .ok (c :: r) none := by
  simp [xMarker, optP, xSpace, charP, hc, nbind]

theorem eatSep_run {s : Str} (hne : s ≠ []) (hh : headNotSep s) :
    eatSep s = .ok s () :=
  eatSep_noSep hne hh

theorem xMarker_none2 {s : Str} (hne : s ≠ [])
    (hh : ∀ c, s.head? = some c → c ≠ 'x') : xMarker s = .ok s none := by
  obtain ⟨a, tl, rfl⟩ := List.exists_cons_of_ne_nil hne
  exact xMarker_none (hh a rfl)

theorem prioritySpace_err2 {s : Str} (hne : s ≠ [])
    (hh : ∀ c, s.head? = some c → c ≠ '(') : prioritySpace s = .error := by
  obtain ⟨a, tl, rfl⟩ := List.exists_cons_of_ne_nil hne
  exact prioritySpace_err (hh a rfl)

/-- Full-line behaviour for a priority marker followed by two dates: the
`unknown` grammar consumes the priority and both dates, the reinterpretation
arm does not fire because a priority is present, and the description is the
text after the second date's whitespace. -/
theorem taskParse_priority_dates {ch : Char} {p : Priority}
    {s1 s2 w1 w2 w3 desc : Str} {d1 d2 : NaiveDate}
    (hc : Priority.ofChar ch = some p)
    (h1 : NaiveDate.parse s1 = .ok [] d1)
    (h2 : NaiveDate.parse s2 = .ok [] d2)
    (hw1 : wsRun w1) (hw2 : wsRun w2) (hw3 : wsRun w3)
    (hdesc : desc ≠ []) (hh : headNotSep desc) :
    Task.parse ('(' :: ch :: ')' :: (w1 ++ (s1 ++ (w2 ++ (s2 ++ (w3 ++ desc)))))) =
      .ok [] ⟨State.incomplete (some p) (some d1), desc⟩ := by
  obtain ⟨c1, t1, hs1, hd1⟩ := (dateParse_decompose h1).1
  obtain ⟨c2, t2, hs2, hd2⟩ := (dateParse_decompose h2).1
  have hR2ne : s2 ++ (w3 ++ desc) ≠ [] := by rw [hs2]; simp
  have hR2h : headNotST (s2 ++ (w3 ++ desc)) := by
    intro c hcq
    rw [hs2] at hcq
    simp only [List.cons_append, List.head?_cons, Option.some.injEq] at hcq
    rw [← hcq]
    exact (dateStartOk_not_special hd2).2.2.1
  have hR1ne : s1 ++ (w2 ++ (s2 ++ (w3 ++ desc))) ≠ [] := by rw [hs1]; simp
  have hR1h : headNotST (s1 ++ (w2 ++ (s2 ++ (w3 ++ desc)))) := by
    intro c hcq
    rw [hs1] at hcq
    simp only [List.cons_append, List.head?_cons, Option.some.injEq] at hcq
    rw [← hcq]
    exact (dateStartOk_not_special hd1).2.2.1
  have e1 : prioritySpace ('(' :: ch :: ')' :: (w1 ++ (s1 ++ (w2 ++ (s2 ++ (w3 ++ desc)))))) =
      .ok (s1 ++ (w2 ++ (s2 ++ (w3 ++ desc)))) p :=
    prioritySpace_run hc hw1 hR1ne hR1h
  have e2 : dateSpace (s1 ++ (w2 ++ (s2 ++ (w3 ++ desc)))) =
      .ok (s2 ++ (w3 ++ desc)) d1 := dateSpace_run h1 hw2 hR2ne hR2h
  have e3 : dateSpace (s2 ++ (w3 ++ desc)) = .ok desc d2 :=
    dateSpace_run h2 hw3 hdesc hh.toST
  have e4 : unknownTriple ('(' :: ch :: ')' :: (w1 ++ (s1 ++ (w2 ++ (s2 ++ (w3 ++ desc)))))) =
      .ok desc (some p, some d1, some d2) := by
    unfold unknownTriple
    rw [optP_of_ok e1]
    simp only [nbind]
    rw [optP_of_ok e2]
    simp only [nbind]
    rw [optP_of_ok e3]
  have e5 : State.parse ('(' :: ch :: ')' :: (w1 ++ (s1 ++ (w2 ++ (s2 ++ (w3 ++ desc)))))) =
      .ok desc (State.incomplete (some p) (some d1)) := by
    unfold State.parse
    rw [xMarker_none (by decide)]
    simp only [nbind]
    rw [e4]
  have hlineh : headNotSep ('(' :: ch :: ')' :: (w1 ++ (s1 ++ (w2 ++ (s2 ++ (w3 ++ desc)))))) := by
    intro c hcq
    simp only [List.head?_cons, Option.some.injEq] at hcq
    rw [← hcq]
    decide
  unfold Task.parse
  rw [eatSep_run (by simp) hlineh]
  simp only [nbind]
  rw [e5]
  simp only [nbind]
  rw [eatSep_run hdesc hh]

/-- Full-line behaviour for two dates with no completion marker and no
priority: the `unknown` grammar finds `(None, Some, Some)` and the
reinterpretation arm promotes the task to complete. -/
theorem taskParse_dual_dates {s1 s2 w1 w2 desc : Str} {d1 d2 : NaiveDate}
    (h1 : NaiveDate.parse s1 = .ok [] d1)
    (h2 : NaiveDate.parse s2 = .ok [] d2)
    (hw1 : wsRun w1) (hw2 : wsRun w2)
    (hdesc : desc ≠ []) (hh : headNotSep desc) :
    Task.parse (s1 ++ (w1 ++ (s2 ++ (w2 ++ desc)))) =
      .ok [] ⟨State.complete (some (d1, d2)), desc⟩ := by
  obtain ⟨c1, t1, hs1, hd1⟩ := (dateParse_decompose h1).1
  obtain ⟨c2, t2, hs2, hd2⟩ := (dateParse_decompose h2).1
  have hLne : s1 ++ (w1 ++ (s2 ++ (w2 ++ desc))) ≠ [] := by rw [hs1]; simp
  have hLhead : (s1 ++ (w1 ++ (s2 ++ (w2 ++ desc)))).head? = some c1 := by
    rw [hs1]; rfl
  have hR2ne : s2 ++ (w2 ++ desc) ≠ [] := by rw [hs2]; simp
  have hR2h : headNotST (s2 ++ (w2 ++ desc)) := by
    intro c hcq
    rw [hs2] at hcq
    simp only [List.cons_append, List.head?_cons, Option.some.injEq] at hcq
    rw [← hcq]
    exact (dateStartOk_not_special hd2).2.2.1
  have e0 : xMarker (s1 ++ (w1 ++ (s2 ++ (w2 ++ desc)))) =
      .ok (s1 ++ (w1 ++ (s2 ++ (w2 ++ desc)))) none :=
    xMarker_none2 hLne (fun c hcq => by
      rw [hLhead] at hcq
      cases hcq
      exact (dateStartOk_not_special hd1).1)
  have e1 : prioritySpace (s1 ++ (w1 ++ (s2 ++ (w2 ++ desc)))) = .error :=
    prioritySpace_err2 hLne (fun c hcq => by
      rw [hLhead] at hcq
      cases hcq
      exact (dateStartOk_not_special hd1).2.1)
  have e2 : dateSpace (s1 ++ (w1 ++ (s2 ++ (w2 ++ desc)))) =
      .ok (s2 ++ (w2 ++ desc)) d1 := dateSpace_run h1 hw1 hR2ne hR2h
  have e3 : dateSpace (s2 ++ (w2 ++ desc)) = .ok desc d2 :=
    dateSpace_run h2 hw2 hdesc hh.toST
  have e4 : unknownTriple (s1 ++ (w1 ++ (s2 ++ (w2 ++ desc)))) =
      .ok desc (none, some d1, some d2) := by
    unfold unknownTriple
    rw [optP_of_err e1]
    simp only [nbind]
    rw [optP_of_ok e2]
    simp only [nbind]
    rw [optP_of_ok e3]
  have e5 : State.parse (s1 ++ (w1 ++ (s2 ++ (w2 ++ desc)))) =
      .ok desc (State.complete (some (d1, d2))) := by
    unfold State.parse
    rw [e0]
    simp only [nbind]
    rw [e4]
  have hlineh : headNotSep (s1 ++ (w1 ++ (s2 ++ (w2 ++ desc)))) := by
    intro c hcq
    rw [hLhead] at hcq
    cases hcq
    exact (dateStartOk_not_special hd1).2.2.2
  unfold Task.parse
  rw [eatSep_run hLne hlineh]
  simp only [nbind]
  rw [e5]
  simp only [nbind]
  rw [eatSep_run hdesc hh]

/-!
## Step equations for the tag scanner
-/

theorem tagsNext_eq_none {data : Str} {st : List (Nat × Char)}
    (h : nextWordBoundary st = none) : tagsNext data st = some none := by
  rw [tagsNext]
  split
  · rfl
  · rename_i s e r hsome
    rw [h] at hsome
    cases hsome

theorem tagsNext_eq_panic {data : Str} {st : List (Nat × Char)} {s e : Nat}
    {r : List (Nat × Char)} (h : nextWordBoundary st = some (s, e, r))
    (hb : byteSlice data s e = none) : tagsNext data st = none := by
  rw [tagsNext]
  split
  · rename_i hnone; rw [h] at hnone; cases hnone
  · rename_i s' e' r' hsome
    rw [h] at hsome
    injection hsome with hsome
    obtain ⟨rfl, rfl, rfl⟩ := Prod.mk.injEq .. ▸ hsome
    split
    · rfl
    · rename_i word' hbs
      rw [hb] at hbs
      cases hbs

theorem tagsNext_eq_context {data : Str} {st : List (Nat × Char)} {s e : Nat}
    {r : List (Nat × Char)} {word : Str}
    (h : nextWordBoundary st = some (s, e, r))
    (hb : byteSlice data s e = some word) (hw : word.head? = some '@') :
    tagsNext data st = some (some (Tag.context s e, r)) := by
  rw [tagsNext]
  split
  · rename_i hnone; rw [h] at hnone; cases hnone
  · rename_i s' e' r' hsome
    rw [h] at hsome
    injection hsome with hsome
    obtain ⟨rfl, rfl, rfl⟩ := Prod.mk.injEq .. ▸ hsome
    split
    · rename_i hbn; rw [hb] at hbn; cases hbn
    · rename_i word' hbs
      rw [hb] at hbs
      injection hbs with hbs
      subst hbs
      rw [if_pos hw]

theorem tagsNext_eq_project {data : Str} {st : List (Nat × Char)} {s e : Nat}
    {r : List (Nat × Char)} {word : Str}
    (h : nextWordBoundary st = some (s, e, r))
    (hb : byteSlice data s e = some word)
    (hw1 : word.head? ≠ some '@') (hw2 : word.head? = some '+') :
    tagsNext data st = some (some (Tag.project s e, r)) := by
  rw [tagsNext]
  split
  · rename_i hnone; rw [h] at hnone; cases hnone
  · rename_i s' e' r' hsome
    rw [h] at hsome
    injection hsome with hsome
    obtain ⟨rfl, rfl, rfl⟩ := Prod.mk.injEq .. ▸ hsome
    split
    · rename_i hbn; rw [hb] at hbn; cases hbn
    · rename_i word' hbs
      rw [hb] at hbs
      injection hbs with hbs
      subst hbs
      rw [if_neg hw1, if_pos hw2]

theorem tagsNext_eq_special {data : Str} {st : List (Nat × Char)} {s e : Nat}
    {r : List (Nat × Char)} {word : Str}
    (h : nextWordBoundary st = some (s, e, r))
    (hb : byteSlice data s e = some word)
    (hw1 : word.head? ≠ some '@') (hw2 : word.head? ≠ some '+')
    (hw3 : word.contains ':') :
    tagsNext data st = some (some (Tag.special s e, r)) := by
  rw [tagsNext]
  split
  · rename_i hnone; rw [h] at hnone; cases hnone
  · rename_i s' e' r' hsome
    rw [h] at hsome
    injection hsome with hsome
    obtain ⟨rfl, rfl, rfl⟩ := Prod.mk.injEq .. ▸ hsome
    split
    · rename_i hbn; rw [hb] at hbn; cases hbn
    · rename_i word' hbs
      rw [hb] at hbs
      injection hbs with hbs
      subst hbs
      rw [if_neg hw1, if_neg hw2, if_pos hw3]

theorem tagsNext_eq_skip {data : Str} {st : List (Nat × Char)} {s e : Nat}
    {r : List (Nat × Char)} {word : Str}
    (h : nextWordBoundary st = some (s, e, r))
    (hb : byteSlice data s e = some word)
    (hw1 : word.head? ≠ some '@') (hw2 : word.head? ≠ some '+')
    (hw3 : ¬ word.contains ':') :
    tagsNext data st = tagsNext data r := by
  rw [tagsNext]
  split
  · rename_i hnone; rw [h] at hnone; cases hnone
  · rename_i s' e' r' hsome
    rw [h] at hsome
    injection hsome with hsome
    obtain ⟨rfl, rfl, rfl⟩ := Prod.mk.injEq .. ▸ hsome
    split
    · rename_i hbn; rw [hb] at hbn; cases hbn
    · rename_i word' hbs
      rw [hb] at hbs
      injection hbs with hbs
      subst hbs
      rw [if_neg hw1, if_neg hw2, if_neg hw3]

theorem allTags_panic {data : Str} {st : List (Nat × Char)}
    (h : tagsNext data st = none) : allTags data st = none := by
  rw [allTags]
  split
  · rfl
  · rename_i hsome; rw [h] at hsome; cases hsome
  · rename_i t r hsome; rw [h] at hsome; cases hsome

theorem allTags_done {data : Str} {st : List (Nat × Char)}
    (h : tagsNext data st = some none) : allTags data st = some [] := by
  rw [allTags]
  split
  · rename_i hnone; rw [h] at hnone; cases hnone
  · rfl
  · rename_i t r hsome; rw [h] at hsome; cases hsome

theorem allTags_cons {data : Str} {st : List (Nat × Char)} {t : Tag}
    {r : List (Nat × Char)} (h : tagsNext data st = some (some (t, r))) :
    allTags data st = (allTags data r).map (t :: ·) := by
  rw [allTags]
  split
  · rename_i hnone; rw [h] at hnone; cases hnone
  · rename_i hsome; rw [h] at hsome; cases hsome
  · rename_i t' r' hsome
    rw [h] at hsome
    injection hsome with hsome
    injection hsome with hsome
    obtain ⟨rfl, rfl⟩ := Prod.mk.injEq .. ▸ hsome
    rfl

theorem byteSlice_pos {s : Str} {a b : Nat} {w : Str}
    (h : byteSlice s a b = some w) (hw : w ≠ []) : a < b := by
  unfold byteSlice at h
  split at h
  · rename_i hab
    rcases hd : dropBytes s a with _ | tail
    · rw [hd] at h; cases h
    · rw [hd] at h
      replace h : takeBytes tail (b - a) = some w := h
      by_cases hba : b - a = 0
      · rw [hba] at h
        have : w = [] := by
          have : takeBytes tail 0 = some ([] : Str) := by cases tail <;> rfl
          rw [this] at h
          injection h with h
          exact h.symm
        exact absurd this hw
      · omega
  · cases h

theorem head?_some_ne_nil {α : Type} {l : List α} {c : α}
    (h : l.head? = some c) : l ≠ [] := by
  intro hnil
  rw [hnil] at h
  cases h

theorem contains_ne_nil {l : Str} {c : Char} (h : l.contains c) : l ≠ [] := by
  intro hnil
  rw [hnil] at h
  exact Bool.noConfusion h

theorem tagsNext_tag_lt (data : Str) :
    ∀ n (st : List (Nat × Char)) (t : Tag) (r : List (Nat × Char)),
      st.length ≤ n → tagsNext data st = some (some (t, r)) →
      t.start < t.stop := by
  intro n
  induction n with
  | zero =>
    intro st t r hlen h
    rw [List.length_eq_zero.mp (Nat.le_zero.mp hlen)] at h
    rw [@tagsNext_eq_none data [] rfl] at h
    cases h
  | succ n ih =>
    intro st t r hlen h
    rw [tagsNext] at h
    split at h
    · cases h
    · rename_i s e rst hw
      have hr : rst.length < st.length := nextWordBoundary_shrink hw
      split at h
      · cases h
      · rename_i word hb
        split at h
        · rename_i h1
          injection h with h
          injection h with h
          obtain ⟨rfl, rfl⟩ := Prod.mk.injEq .. ▸ h
          exact byteSlice_pos hb (head?_some_ne_nil h1)
        · split at h
          · rename_i h1 h2
            injection h with h
            injection h with h
            obtain ⟨rfl, rfl⟩ := Prod.mk.injEq .. ▸ h
            exact byteSlice_pos hb (head?_some_ne_nil h2)
          · split at h
            · rename_i h1 h2 h3
              injection h with h
              injection h with h
              obtain ⟨rfl, rfl⟩ := Prod.mk.injEq .. ▸ h
              exact byteSlice_pos hb (contains_ne_nil h3)
            · exact ih rst t r (by omega) h

theorem allTags_start_lt (data : Str) :
    ∀ n (st : List (Nat × Char)) (ts : List Tag),
      st.length ≤ n → allTags data st = some ts →
      ∀ t ∈ ts, t.start < t.stop := by
  intro n
  induction n with
  | zero =>
    intro st ts hlen h t ht
    rw [List.length_eq_zero.mp (Nat.le_zero.mp hlen)] at h
    rw [allTags_done (@tagsNext_eq_none data [] rfl)] at h
    injection h with h
    subst h
    exact absurd ht (by simp)
  | succ n ih =>
    intro st ts hlen h t ht
    rcases htn : tagsNext data st with _ | ⟨_ | ⟨t0, r⟩⟩
    · rw [allTags_panic htn] at h; cases h
    · rw [allTags_done htn] at h
      injection h with h
      subst h
      exact absurd ht (by simp)
    · have hshr : r.length < st.length := tagsNext_shrink data st.length st t0 r (Nat.le_refl _) htn
      rw [allTags_cons htn] at h
      rcases har : allTags data r with _ | ts2
      · rw [har] at h; cases h
      · rw [har] at h
        simp only [Option.map_some'] at h
        injection h with h
        subst h
        rcases List.mem_cons.mp ht with rfl | hmem
        · exact tagsNext_tag_lt data st.length st t r (Nat.le_refl _) htn
        · exact ih r ts2 (by omega) har t hmem

theorem headNotSep_cons {a : Char} {tl : Str} (ha : isSep a = false) :
    headNotSep (a :: tl) := by
  intro c hc
  simp only [List.head?_cons, Option.some.injEq] at hc
  rw [← hc]
  exact ha

/-!
## The claims
-/

/-- C1: at the spec's example line the parsed task is complete with the two
dates stored in order and the description `"buy milk"`, but `creation_date()`
projects the *first* component of the pair — the completion date — so it
returns 2021-02-02, not 2021-02-01 as the claim requires.  In general both
accessors return the first date of a complete task's pair. -/
theorem c1_creation_date_returns_first_date :
    (parseTask (str "x 2021-02-02 2021-02-01 buy milk")).map
        (fun t => (t.completion_date, t.creation_date, t.description)) =
      some (some ⟨2021, 2, 2⟩, some ⟨2021, 2, 2⟩, str "buy milk") ∧
    some (⟨2021, 2, 2⟩ : NaiveDate) ≠ some (⟨2021, 2, 1⟩ : NaiveDate) ∧
    ∀ (d1 d2 : NaiveDate) (text : Str),
      (Task.mk (State.complete (some (d1, d2))) text).completion_date = some d1 ∧
      (Task.mk (State.complete (some (d1, d2))) text).creation_date = some d1 :=
  ⟨rfl, by decide, fun d1 d2 text => ⟨rfl, rfl⟩⟩

/-- C2 counterexample: on a line with a priority marker and two dates the
`unknown` grammar's `(None, Some, Some)` reinterpretation arm does not match,
so the state is `Incomplete(Some(A), Some(2021-02-02))` — not `Complete` —
refuting the claim's "regardless of whether a priority marker was present". -/
theorem c2_counterexample_priority_blocks_reinterpretation :
    (parseTask (str "(A) 2021-02-02 2021-02-01 call mom")).map Task.state =
      some (State.incomplete (some Priority.A) (some ⟨2021, 2, 2⟩)) ∧
    ∀ dates,
      (parseTask (str "(A) 2021-02-02 2021-02-01 call mom")).map Task.state ≠
        some (State.complete dates) := by
  have h : (parseTask (str "(A) 2021-02-02 2021-02-01 call mom")).map Task.state =
      some (State.incomplete (some Priority.A) (some ⟨2021, 2, 2⟩)) := rfl
  refine ⟨h, fun dates hc => ?_⟩
  rw [h] at hc
  cases hc

/-- C2 amended: for every line that does not begin with the completion marker
and in which the grammar finds exactly two whitespace-terminated dates *and no
priority marker*, the parsed state is `Complete(Some((first, second)))` and
the first date is the completion date. -/
theorem c2_dual_dates_complete_without_priority
    {s1 s2 w1 w2 desc : Str} {d1 d2 : NaiveDate}
    (h1 : NaiveDate.parse s1 = .ok [] d1) (h2 : NaiveDate.parse s2 = .ok [] d2)
    (hw1 : wsRun w1) (hw2 : wsRun w2)
    (hdesc : desc ≠ []) (hh : headNotSep desc) :
    parseTask (s1 ++ (w1 ++ (s2 ++ (w2 ++ desc)))) =
      some ⟨State.complete (some (d1, d2)), desc⟩ ∧
    (Task.mk (State.complete (some (d1, d2))) desc).completion_date = some d1 := by
  constructor
  · unfold parseTask
    rw [taskParse_dual_dates h1 h2 hw1 hw2 hdesc hh]
  · rfl

/-- Witness for C2 at the spec's own example `"2021-02-02 2021-02-01 call mom"`. -/
theorem c2_dual_dates_complete_witness :
    parseTask (str "2021-02-02" ++ ([' '] ++ (str "2021-02-01" ++ ([' '] ++ str "call mom")))) =
      some ⟨State.complete (some (⟨2021, 2, 2⟩, ⟨2021, 2, 1⟩)), str "call mom"⟩ ∧
    (Task.mk (State.complete (some (⟨2021, 2, 2⟩, ⟨2021, 2, 1⟩))) (str "call mom")).completion_date =
      some ⟨2021, 2, 2⟩ :=
  c2_dual_dates_complete_without_priority rfl rfl ⟨by decide, by decide⟩
    ⟨by decide, by decide⟩ (by decide) (headNotSep_cons (by decide))

/-- C3: parsing is *not* infallible.  nom 4's streaming `space`/`char!`
report `Incomplete` at end of input, `opt!` propagates it, and the crate's
`parse` helper flattens it to `None`; `Iter::next` then returns `None`,
terminating iteration and dropping the following non-blank line.  The lines
`"x"`, `"("` and `"(A)"` named by the claim all fail this way. -/
theorem c3_degenerate_lines_fail_and_stop_iteration :
    parseTask (str "x") = none ∧
    parseTask (str "(") = none ∧
    parseTask (str "(A)") = none ∧
    parseTask (str "buy milk") = some ⟨State.incomplete none none, str "buy milk"⟩ ∧
    tasksForward (str "x\nbuy milk") = [] :=
  ⟨rfl, rfl, rfl, rfl, rfl⟩

/-- C5 counterexample: `Priority` derives `Ord`, and a fieldless enum's
derived `cmp` compares declaration order, so `cmp(A, Z)` is `Less` — the
claim's "p compares greater than q exactly when p's letter precedes q's, for
every comparison the type offers" fails on `Ord::cmp`. -/
theorem c5_counterexample_derived_cmp :
    Priority.cmp Priority.A Priority.Z = Ordering.lt ∧
    Priority.pcmp Priority.A Priority.Z = some Ordering.gt ∧
    Ordering.lt ≠ Ordering.gt := by decide

/-- C5 amended: the hand-written `partial_cmp` — the comparison behind the
`<`, `>`, `<=`, `>=` operators — is inverse-alphabetical, and equal letters
are equal; but the derived `Ord::cmp` follows declaration order instead. -/
theorem c5_pcmp_inverse_alphabetical :
    ∀ p q : Priority,
      (Priority.pcmp p q = some Ordering.gt ↔ p.toIdx < q.toIdx) ∧
      (Priority.pcmp p q = some Ordering.eq ↔ p = q) ∧
      (Priority.pcmp p q = some Ordering.lt ↔ q.toIdx < p.toIdx) := by decide

/-- C6: forward and reverse iteration disagree on `"x\na"`.  The line `"x"`
fails to parse (see C3), so `next` stops at once and forward iteration yields
nothing, while `next_back` first yields the task for `"a"` before stopping at
`"x"` — reverse iteration is not the reverse of forward iteration. -/
theorem c6_reverse_iteration_mismatch :
    tasksForward (str "x\na") = [] ∧
    tasksBackward (str "x\na") = [⟨State.incomplete none none, str "a"⟩] ∧
    tasksBackward (str "x\na") ≠ (tasksForward (str "x\na")).reverse :=
  ⟨rfl, rfl, by decide⟩

/-- C9: the derived `Ord::cmp` orders by declaration position (`A` least,
`Z` greatest, so sorting by `cmp` puts `A` first), while `partial_cmp`
inverts it; on every pair of distinct priorities the two disagree. -/
theorem c9_cmp_and_pcmp_disagree :
    (∀ p q : Priority, Priority.cmp p q = Ordering.lt ↔ p.toIdx < q.toIdx) ∧
    (∀ p : Priority, Priority.cmp Priority.A p ≠ Ordering.gt) ∧
    (∀ p : Priority, Priority.cmp p Priority.Z ≠ Ordering.gt) ∧
    (∀ p q : Priority, p ≠ q →
      some (Priority.cmp p q) ≠ Priority.pcmp p q) := by decide

/-- Witness for C9 at the pair `(A, B)`. -/
theorem c9_cmp_and_pcmp_disagree_witness :
    Priority.A ≠ Priority.B ∧
    some (Priority.cmp Priority.A Priority.B) ≠ Priority.pcmp Priority.A Priority.B :=
  ⟨by decide, c9_cmp_and_pcmp_disagree.2.2.2 Priority.A Priority.B (by decide)⟩

/-- C4: tag spans are not always character boundaries.  For the description
`"aé"` the scanner computes the span end as the last character's byte offset
plus one (`1 + 1 = 2`), but `'é'` occupies bytes 1..3, so offset 2 falls
inside it; slicing the description panics, refuting "both start and end are
valid character boundaries" and "tag iteration never panics" for non-ASCII
descriptions. -/
theorem c4_multibyte_word_end_not_boundary :
    nextWordBoundary (charIndicesFrom 0 (str "aé")) = some (0, 2, []) ∧
    byteSlice (str "aé") 0 2 = none ∧
    dropBytes (str "aé") 2 = none ∧
    tagsOf (str "aé") = none := by
  refine ⟨rfl, rfl, rfl, ?_⟩
  unfold tagsOf
  exact allTags_panic (tagsNext_eq_panic rfl rfl)

/-- C7 counterexample: the standalone word `"@"` starts with `'@'` but
produces *no* tag at all — the word-boundary scan gives a one-character word
the empty span, the sliced text is empty, and the empty text matches no
classification — so "a word starting with `@` is classified as Context" is
not true of every whitespace-delimited word. -/
theorem c7_counterexample_single_at :
    (str "@").head? = some '@' ∧ tagsOf (str "@") = some [] := by
  refine ⟨rfl, ?_⟩
  unfold tagsOf
  have hnwb : nextWordBoundary (charIndicesFrom 0 (str "@")) = some (0, 0, []) := rfl
  have hbs : byteSlice (str "@") 0 0 = some [] := rfl
  have h1 := tagsNext_eq_skip hnwb hbs (by decide) (by decide) (by decide)
  exact allTags_done (h1.trans (@tagsNext_eq_none (str "@") [] rfl))

/-- C7 amended: for every scanned word whose sliced text is examined, the
classification is tried in the fixed order Context (starts with `@`, even if
it also contains `:`), Project (starts with `+`), Special (contains `:`),
and a word matching none of these yields no tag and scanning continues;
the word `"@foo:bar"` classifies as Context.  (The original claim fails only
for one-character words, whose sliced text is empty — see the
counterexample.) -/
theorem c7_classification_order {data : Str} {st : List (Nat × Char)}
    {s e : Nat} {r : List (Nat × Char)} {word : Str}
    (h : nextWordBoundary st = some (s, e, r))
    (hb : byteSlice data s e = some word) :
    (word.head? = some '@' →
      tagsNext data st = some (some (Tag.context s e, r))) ∧
    (word.head? ≠ some '@' → word.head? = some '+' →
      tagsNext data st = some (some (Tag.project s e, r))) ∧
    (word.head? ≠ some '@' → word.head? ≠ some '+' → word.contains ':' →
      tagsNext data st = some (some (Tag.special s e, r))) ∧
    (word.head? ≠ some '@' → word.head? ≠ some '+' → ¬ word.contains ':' →
      tagsNext data st = tagsNext data r) :=
  ⟨fun h1 => tagsNext_eq_context h hb h1,
   fun h1 h2 => tagsNext_eq_project h hb h1 h2,
   fun h1 h2 h3 => tagsNext_eq_special h hb h1 h2 h3,
   fun h1 h2 h3 => tagsNext_eq_skip h hb h1 h2 h3⟩

/-- Witness for C7: `"@foo:bar"` — which both starts with `@` and contains
`:` — scans as a Context tag spanning the whole word. -/
theorem c7_classification_order_witness :
    tagsNext (str "@foo:bar") (charIndicesFrom 0 (str "@foo:bar")) =
      some (some (Tag.context 0 8, [])) ∧
    tagsOf (str "@foo:bar") = some [Tag.context 0 8] := by
  have hn : nextWordBoundary (charIndicesFrom 0 (str "@foo:bar")) = some (0, 8, []) := rfl
  have hbs : byteSlice (str "@foo:bar") 0 8 = some (str "@foo:bar") := rfl
  have h1 := (c7_classification_order hn hbs).1 rfl
  refine ⟨h1, ?_⟩
  unfold tagsOf
  rw [allTags_cons h1, allTags_done (@tagsNext_eq_none (str "@foo:bar") [] rfl)]
  rfl

/-- C8: a line `"(P) date1 date2 desc"` with no completion marker parses as
`Incomplete(Some(P), Some(date1))`: the priority is kept, the first date is
the creation date, and the second date token is consumed by the grammar — it
is in neither the state (which holds only `priority` and `date1`) nor the
description, which is exactly the text after the second date's terminating
whitespace. -/
theorem c8_priority_with_two_dates
    {ch : Char} {p : Priority} {s1 s2 w1 w2 w3 desc : Str} {d1 d2 : NaiveDate}
    (hc : Priority.ofChar ch = some p)
    (h1 : NaiveDate.parse s1 = .ok [] d1) (h2 : NaiveDate.parse s2 = .ok [] d2)
    (hw1 : wsRun w1) (hw2 : wsRun w2) (hw3 : wsRun w3)
    (hdesc : desc ≠ []) (hh : headNotSep desc) :
    parseTask ('(' :: ch :: ')' :: (w1 ++ (s1 ++ (w2 ++ (s2 ++ (w3 ++ desc)))))) =
      some ⟨State.incomplete (some p) (some d1), desc⟩ ∧
    (Task.mk (State.incomplete (some p) (some d1)) desc).priority = some p ∧
    (Task.mk (State.incomplete (some p) (some d1)) desc).creation_date = some d1 ∧
    (Task.mk (State.incomplete (some p) (some d1)) desc).completion_date = none ∧
    (Task.mk (State.incomplete (some p) (some d1)) desc).description = desc := by
  refine ⟨?_, rfl, rfl, rfl, rfl⟩
  unfold parseTask
  rw [taskParse_priority_dates hc h1 h2 hw1 hw2 hw3 hdesc hh]

/-- Witness for C8 at `"(B) 2020-01-02 2019-12-31 pay bills"`. -/
theorem c8_priority_with_two_dates_witness :
    parseTask ('(' :: 'B' :: ')' :: ([' '] ++ (str "2020-01-02" ++ ([' '] ++
        (str "2019-12-31" ++ ([' '] ++ str "pay bills")))))) =
      some ⟨State.incomplete (some Priority.B) (some ⟨2020, 1, 2⟩), str "pay bills"⟩ ∧
    (Task.mk (State.incomplete (some Priority.B) (some ⟨2020, 1, 2⟩)) (str "pay bills")).priority =
      some Priority.B ∧
    (Task.mk (State.incomplete (some Priority.B) (some ⟨2020, 1, 2⟩)) (str "pay bills")).creation_date =
      some ⟨2020, 1, 2⟩ ∧
    (Task.mk (State.incomplete (some Priority.B) (some ⟨2020, 1, 2⟩)) (str "pay bills")).completion_date =
      none ∧
    (Task.mk (State.incomplete (some Priority.B) (some ⟨2020, 1, 2⟩)) (str "pay bills")).description =
      str "pay bills" :=
  c8_priority_with_two_dates rfl rfl rfl ⟨by decide, by decide⟩
    ⟨by decide, by decide⟩ ⟨by decide, by decide⟩ (by decide)
    (headNotSep_cons (by decide))

/-- C10: a one-character word scans with `end = start` (the emptied
`take_while` adapter's `last()` is `None` and `map_or` falls back to
`start`), the sliced text is therefore empty and classifies as nothing, so
the standalone words `"@"`, `"+"` and `":"` produce no tag; consequently
every tag the iterator does yield has `start < end`. -/
theorem c10_one_char_words_yield_no_tag :
    (∀ (i : Nat) (c : Char) (rest : List (Nat × Char)),
        rustIsWhitespace c = false →
        rest.takeWhile (fun q => !rustIsWhitespace q.2) = [] →
        nextWordBoundary ((i, c) :: rest) = some (i, i, rest.tail)) ∧
    (∀ (data : Str) (ts : List Tag), tagsOf data = some ts →
        ∀ t ∈ ts, t.start < t.stop) ∧
    tagsOf (str "@") = some [] ∧
    tagsOf (str "+") = some [] ∧
    tagsOf (str ":") = some [] := by
  refine ⟨?_, ?_, ?_, ?_, ?_⟩
  · intro i c rest hc hrw
    simp [nextWordBoundary, hc, hrw]
  · intro data ts h t ht
    exact allTags_start_lt data (charIndicesFrom 0 data).length
      (charIndicesFrom 0 data) ts (Nat.le_refl _) h t ht
  · unfold tagsOf
    have hnwb : nextWordBoundary (charIndicesFrom 0 (str "@")) = some (0, 0, []) := rfl
    have hbs : byteSlice (str "@") 0 0 = some [] := rfl
    have h1 := tagsNext_eq_skip hnwb hbs (by decide) (by decide) (by decide)
    exact allTags_done (h1.trans (@tagsNext_eq_none (str "@") [] rfl))
  · unfold tagsOf
    have hnwb : nextWordBoundary (charIndicesFrom 0 (str "+")) = some (0, 0, []) := rfl
    have hbs : byteSlice (str "+") 0 0 = some [] := rfl
    have h1 := tagsNext_eq_skip hnwb hbs (by decide) (by decide) (by decide)
    exact allTags_done (h1.trans (@tagsNext_eq_none (str "+") [] rfl))
  · unfold tagsOf
    have hnwb : nextWordBoundary (charIndicesFrom 0 (str ":")) = some (0, 0, []) := rfl
    have hbs : byteSlice (str ":") 0 0 = some [] := rfl
    have h1 := tagsNext_eq_skip hnwb hbs (by decide) (by decide) (by decide)
    exact allTags_done (h1.trans (@tagsNext_eq_none (str ":") [] rfl))

/-- Witness for C10: the one-character word `"@"` gets the empty span, and on
`"@ab"` the single produced tag has a strictly positive span. -/
theorem c10_one_char_words_witness :
    rustIsWhitespace '@' = false ∧
    nextWordBoundary [(0, '@')] = some (0, 0, []) ∧
    tagsOf (str "@ab") = some [Tag.context 0 3] ∧
    Tag.start (Tag.context 0 3) < Tag.stop (Tag.context 0 3) := by
  have hn : nextWordBoundary (charIndicesFrom 0 (str "@ab")) = some (0, 3, []) := rfl
  have hbs : byteSlice (str "@ab") 0 3 = some (str "@ab") := rfl
  have hctx : tagsNext (str "@ab") (charIndicesFrom 0 (str "@ab")) =
      some (some (Tag.context 0 3, [])) :=
    tagsNext_eq_context hn hbs rfl
  have htags : tagsOf (str "@ab") = some [Tag.context 0 3] := by
    unfold tagsOf
    rw [allTags_cons hctx, allTags_done (@tagsNext_eq_none (str "@ab") [] rfl)]
    rfl
  refine ⟨by decide, ?_, htags, ?_⟩
  · exact c10_one_char_words_yield_no_tag.1 0 '@' [] (by decide) rfl
  · exact c10_one_char_words_yield_no_tag.2.1 (str "@ab") [Tag.context 0 3]
      htags (Tag.context 0 3) (by simp)

end Todotxt
